import Mathlib

/-!
Verification of the 2048 expectimax player.

The definitions below are a shallow embedding of the repository's Python
sources:

* `src/game.py`      — board model, move resolution, legal-move enumeration;
* `src/expectimax_agent.py` — the agent (top-level move selection, chance-node
  sampling policy, phase-adaptive leaf evaluation);
* `src/heuristics.py` — the stand-alone fixed-weight evaluator.

Boards are Python lists of lists of non-negative integers, embedded as
`List (List ℕ)`.  Real-valued scores are embedded as `ℚ`; the library
function `math.log2` (applied by the code only to positive cell values)
is abstracted as an explicit parameter `lg : ℕ → ℚ`, so every definition
stays computable.  All boards manipulated by the program are rectangular
(`size` rows of length `size`), where Python's `zip(*board)` coincides with
the index-wise transpose embedded below.
-/

namespace Game2048

/-- A board: Python `list of list of int`, 0 = empty cell. -/
abbrev Board := List (List ℕ)

/-- The mutable state of `Game2048`: `size`, `board`, `score`. -/
structure Game where
  size : ℕ
  board : Board
  score : ℕ
deriving DecidableEq, Repr

/-- `board[i][j]` (total: out-of-range reads give 0; the program only reads
in-range cells). -/
def cell (b : Board) (i j : ℕ) : ℕ := (b.getD i []).getD j 0

/-- `self.board[i][j] = v`. -/
def setCell (b : Board) (i j : ℕ) (v : ℕ) : Board :=
  b.set i ((b.getD i []).set j v)

/-- `game.py` `_move_left`, compression step: `[x for x in row if x != 0]`. -/
def compressRow (row : List ℕ) : List ℕ := row.filter (fun x => x != 0)

/-- `game.py` `_move_left`, merge loop: scan left to right, merge one adjacent
equal pair at a time and skip the consumed element; returns the merged
sequence and the points gained. -/
def mergeRow : List ℕ → List ℕ × ℕ
  | [] => ([], 0)
  | [x] => ([x], 0)
  | x :: y :: rest =>
    if x = y then
      let m := mergeRow rest
      (x * 2 :: m.1, m.2 + x * 2)
    else
      let m := mergeRow (y :: rest)
      (x :: m.1, m.2)

/-- One row of `_move_left`: compress, merge, pad with zeros to length `n`. -/
def moveLeftRow (n : ℕ) (row : List ℕ) : List ℕ × ℕ :=
  let m := mergeRow (compressRow row)
  (m.1 ++ List.replicate (n - m.1.length) 0, m.2)

/-- `_move_left` over the whole board; total points is the sum over rows. -/
def moveLeftBoard (n : ℕ) (b : Board) : Board × ℕ :=
  (b.map (fun r => (moveLeftRow n r).1), (b.map (fun r => (moveLeftRow n r).2)).sum)

/-- `_reverse_board`: `[row[::-1] for row in board]`. -/
def reverseBoard (b : Board) : Board := b.map List.reverse

/-- `_transpose_board`: Python `zip(*board)`.  On the rectangular boards the
program manipulates this is the matrix transpose, written index-wise. -/
def transposeB (b : Board) : Board :=
  match b with
  | [] => []
  | r :: _ => (List.range r.length).map (fun j => b.map (fun row => row.getD j 0))

/-- `_move_right`: reverse rows, move left, reverse back. -/
def moveRightBoard (n : ℕ) (b : Board) : Board × ℕ :=
  let m := moveLeftBoard n (reverseBoard b)
  (reverseBoard m.1, m.2)

/-- `_move_up`: transpose, move left, transpose back. -/
def moveUpBoard (n : ℕ) (b : Board) : Board × ℕ :=
  let m := moveLeftBoard n (transposeB b)
  (transposeB m.1, m.2)

/-- `_move_down`: transpose, move right, transpose back. -/
def moveDownBoard (n : ℕ) (b : Board) : Board × ℕ :=
  let m := moveRightBoard n (transposeB b)
  (transposeB m.1, m.2)

/-- The `if/elif` direction dispatch of `Game2048.move` (0=UP, 1=RIGHT,
2=DOWN, 3=LEFT; any other value falls through and leaves the board
untouched with 0 points). -/
def moveDispatch (n : ℕ) (b : Board) (d : ℤ) : Board × ℕ :=
  if d = 0 then moveUpBoard n b
  else if d = 1 then moveRightBoard n b
  else if d = 2 then moveDownBoard n b
  else if d = 3 then moveLeftBoard n b
  else (b, 0)

/-- `Game2048.move(direction)`: dispatch on the direction, set `moved` iff
the grid changed, and add the points to the score only when `moved`.
Returns (new state, moved, points). -/
def moveGame (g : Game) (d : ℤ) : Game × Bool × ℕ :=
  let m : Board × ℕ := moveDispatch g.size g.board d
  let moved : Bool := decide (g.board ≠ m.1)
  (⟨g.size, m.1, if moved then g.score + m.2 else g.score⟩, moved, m.2)

/-- `get_available_moves`: the directions in `range(4)` whose trial move on a
clone reports `moved`. -/
def availableMoves (g : Game) : List ℤ :=
  ([0, 1, 2, 3] : List ℤ).filter (fun d => (moveGame g d).2.1)

/-- `is_game_over`: no available moves. -/
def isGameOver (g : Game) : Bool := (availableMoves g).isEmpty

/-- `add_random_tile` as a relation: some empty cell receives a 2 or a 4
(the random choices of cell and value are existentially quantified). -/
def spawnStep (g g' : Game) : Prop :=
  ∃ i j v, i < g.size ∧ j < g.size ∧ cell g.board i j = 0 ∧ (v = 2 ∨ v = 4) ∧
    g' = ⟨g.size, setCell g.board i j v, g.score⟩

/-- Boards reachable in a game lineage: the all-zero initial grid, closed
under tile spawns (`__init__` performs two of them) and moves. -/
inductive Reachable (n : ℕ) : Game → Prop
  | init : Reachable n ⟨n, List.replicate n (List.replicate n 0), 0⟩
  | spawn {g g' : Game} : Reachable n g → spawnStep g g' → Reachable n g'
  | move {g : Game} (d : ℤ) : Reachable n g → Reachable n (moveGame g d).1

/-- Every non-zero cell value is a power of two that is at least 2. -/
def PowInv (b : Board) : Prop :=
  ∀ r ∈ b, ∀ x ∈ r, x ≠ 0 → ∃ k, 1 ≤ k ∧ x = 2 ^ k

end Game2048

namespace Game2048

/-! ## Basic facts about the row operations -/

theorem compressRow_sublist (row : List ℕ) : (compressRow row).Sublist row :=
  List.filter_sublist row

theorem compressRow_nonzero (row : List ℕ) : ∀ x ∈ compressRow row, x ≠ 0 := by
  intro x hx
  have := List.of_mem_filter hx
  simpa using this

theorem mergeRow_mem {l : List ℕ} {x : ℕ} (hx : x ∈ (mergeRow l).1) :
    x ∈ l ∨ ∃ y ∈ l, x = y * 2 := by
  induction l using mergeRow.induct with
  | case1 => simp [mergeRow] at hx
  | case2 a => simp [mergeRow] at hx; simp [hx]
  | case3 a rest ih =>
    rw [mergeRow, if_pos rfl] at hx
    simp only [List.mem_cons] at hx
    rcases hx with h | h
    · exact Or.inr ⟨a, by simp, h⟩
    · rcases ih h with h' | ⟨y, hy, hxy⟩
      · exact Or.inl (by simp [h'])
      · exact Or.inr ⟨y, by simp [hy], hxy⟩
  | case4 a b rest hab ih =>
    rw [mergeRow, if_neg hab] at hx
    simp only [List.mem_cons] at hx
    rcases hx with h | h
    · exact Or.inl (by simp [h])
    · rcases ih h with h' | ⟨y, hy, hxy⟩
      · exact Or.inl (by simp [List.mem_cons.1 h'])
      · exact Or.inr ⟨y, by simp [List.mem_cons.1 hy], hxy⟩

theorem mergeRow_nonzero {l : List ℕ} (hl : ∀ x ∈ l, x ≠ 0) :
    ∀ x ∈ (mergeRow l).1, x ≠ 0 := by
  intro x hx
  rcases mergeRow_mem hx with h | ⟨y, hy, hxy⟩
  · exact hl x h
  · have := hl y hy
    omega

theorem mergeRow_length_le (l : List ℕ) : (mergeRow l).1.length ≤ l.length := by
  induction l using mergeRow.induct with
  | case1 => simp [mergeRow]
  | case2 a => simp [mergeRow]
  | case3 a rest ih =>
    rw [mergeRow, if_pos rfl]
    simp only [List.length_cons]
    omega
  | case4 a b rest hab ih =>
    rw [mergeRow, if_neg hab]
    simp only [List.length_cons] at ih ⊢
    omega

/-- A merge-free scan: with no adjacent equal values, `mergeRow` is the
identity and yields no points. -/
theorem mergeRow_of_chain {l : List ℕ} (h : List.Chain' (fun a b => a ≠ b) l) :
    mergeRow l = (l, 0) := by
  induction l using mergeRow.induct with
  | case1 => simp [mergeRow]
  | case2 a => simp [mergeRow]
  | case3 a rest ih =>
    exact absurd rfl (List.chain'_cons.1 h).1
  | case4 a b rest hab ih =>
    rw [mergeRow, if_neg hab]
    rw [ih (List.chain'_cons.1 h).2]

theorem moveLeftRow_length {n : ℕ} {row : List ℕ} (h : row.length ≤ n) :
    (moveLeftRow n row).1.length = n := by
  have h1 : (mergeRow (compressRow row)).1.length ≤ row.length := by
    calc (mergeRow (compressRow row)).1.length ≤ (compressRow row).length :=
          mergeRow_length_le _
      _ ≤ row.length := (compressRow_sublist row).length_le
  simp only [moveLeftRow, List.length_append, List.length_replicate]
  omega

end Game2048

namespace Game2048

/-! ## Packed rows and when a slide changes a row -/

/-- A row is left-packed when every cell to the right of a zero is zero. -/
def leftPacked (l : List ℕ) : Prop :=
  ∀ i j (hi : i < l.length) (hj : j < l.length), i ≤ j → l[i] = 0 → l[j] = 0

theorem leftPacked_append_replicate {m : List ℕ} (hm : ∀ x ∈ m, x ≠ 0) (k : ℕ) :
    leftPacked (m ++ List.replicate k 0) := by
  intro i j hi hj hij h0
  by_cases hjm : j < m.length
  · have him : i < m.length := lt_of_le_of_lt hij hjm
    rw [List.getElem_append_left him] at h0
    exact absurd h0 (hm _ (List.getElem_mem him))
  · have hj' : m.length ≤ j := le_of_not_lt hjm
    rw [List.getElem_append_right hj']
    exact List.getElem_replicate 0 _

theorem moveLeftRow_leftPacked (n : ℕ) (row : List ℕ) :
    leftPacked (moveLeftRow n row).1 :=
  leftPacked_append_replicate (mergeRow_nonzero (compressRow_nonzero row)) _

theorem not_leftPacked {l : List ℕ} {i j : ℕ} (hi : i < l.length)
    (hj : j < l.length) (hij : i ≤ j) (h0 : l[i] = 0) (hnz : l[j] ≠ 0) :
    ¬ leftPacked l := fun h => hnz (h i j hi hj hij h0)

theorem moveLeftRow_ne {n : ℕ} {row : List ℕ} (h : ¬ leftPacked row) :
    (moveLeftRow n row).1 ≠ row := by
  intro he
  exact h (he ▸ moveLeftRow_leftPacked n row)

theorem rev_get (l : List ℕ) (i : ℕ) (hi : i < l.length)
    (hr : l.length - 1 - i < l.reverse.length) :
    l.reverse[l.length - 1 - i] = l[i] := by
  rw [List.getElem_reverse]
  congr 1
  omega

/-- A row holding both a zero and a non-zero cell moves under LEFT or under
RIGHT (at the row level: the left slide or the reversed left slide of the
reversed row changes it). -/
theorem row_mixed_move {n : ℕ} {row : List ℕ} {p q : ℕ}
    (hp : p < row.length) (hq : q < row.length)
    (h0 : row[p] = 0) (hnz : row[q] ≠ 0) :
    (moveLeftRow n row).1 ≠ row ∨
      ((moveLeftRow n row.reverse).1.reverse ≠ row) := by
  by_cases hL : leftPacked row
  · right
    have hqp : q < p := by
      rcases lt_or_ge q p with h | h
      · exact h
      · exact absurd (hL p q hp hq h h0) hnz
    intro he
    have he' : (moveLeftRow n row.reverse).1 = row.reverse := by
      have := congrArg List.reverse he
      rwa [List.reverse_reverse] at this
    have hpk : leftPacked row.reverse := he' ▸ moveLeftRow_leftPacked n row.reverse
    have hi : row.length - 1 - p < row.reverse.length := by
      rw [List.length_reverse]; omega
    have hj : row.length - 1 - q < row.reverse.length := by
      rw [List.length_reverse]; omega
    have e1 : row.reverse[row.length - 1 - p] = 0 := by
      rw [rev_get row p hp hi]
      exact h0
    have e2 : row.reverse[row.length - 1 - q] = 0 :=
      hpk _ _ hi hj (by omega) e1
    rw [rev_get row q hq hj] at e2
    exact hnz e2
  · exact Or.inl (moveLeftRow_ne hL)

/-- With every cell non-zero and no adjacent equal cells, a left slide of a
full row is the identity and earns no points. -/
theorem moveLeftRow_fixed {row : List ℕ}
    (hnz : ∀ x ∈ row, x ≠ 0) (hch : List.Chain' (fun a b => a ≠ b) row) :
    moveLeftRow row.length row = (row, 0) := by
  have hc : compressRow row = row :=
    List.filter_eq_self.2 (fun a ha => by simpa using hnz a ha)
  simp [moveLeftRow, hc, mergeRow_of_chain hch]

end Game2048

namespace Game2048

/-! ## Claim C1 — one merge per adjacent pair, no chaining -/

/-- Claim C1: sliding a row `[x,x,x,x]` left merges each of the two adjacent
pairs exactly once — the result is `[2x,2x,0,0]` with `2x + 2x` points, never
a chained `[4x,0,0,0]`; in particular `[2,2,2,2]` yields `[4,4,0,0]` with
8 points, and the LEFT move on a board whose only occupied row is
`[2,2,2,2]` returns `pointsGained = 8` and adds 8 to the score. -/
theorem C1_merge_once :
    (∀ x : ℕ, moveLeftRow 4 [x, x, x, x] = ([x * 2, x * 2, 0, 0], x * 2 + x * 2)) ∧
    moveLeftRow 4 [2, 2, 2, 2] = ([4, 4, 0, 0], 8) ∧
    moveGame ⟨4, [[2,2,2,2],[0,0,0,0],[0,0,0,0],[0,0,0,0]], 0⟩ 3 =
      (⟨4, [[4,4,0,0],[0,0,0,0],[0,0,0,0],[0,0,0,0]], 8⟩, true, 8) := by
  refine ⟨fun x => ?_, by decide, by decide⟩
  by_cases hx : x = 0
  · subst hx; decide
  · simp [moveLeftRow, compressRow, mergeRow, hx]

/-! ## Claim C5 — out-of-range directions -/

/-- Claim C5 (counterexample): a move with the out-of-range direction 7 is
silently tolerated — it returns the perfectly normal result
`(changed = false, pointsGained = 0)` with the state unchanged, rather than
failing assertion-style. -/
theorem C5_counterexample :
    moveGame ⟨4, [[2,4,8,16],[0,0,0,0],[0,0,0,0],[0,0,0,0]], 0⟩ 7 =
      (⟨4, [[2,4,8,16],[0,0,0,0],[0,0,0,0],[0,0,0,0]], 0⟩, false, 0) := by
  decide

/-- Claim C5 (amended): for every board and every direction outside 0..3 the
`if/elif` chain of `move` falls through, so the move is silently tolerated:
it returns the normal result `(changed = false, pointsGained = 0)` and the
state is unchanged.  No assertion-style failure occurs. -/
theorem C5_amended (g : Game) (d : ℤ) (hd : d < 0 ∨ 3 < d) :
    moveGame g d = (g, false, 0) := by
  have h0 : d ≠ 0 := by omega
  have h1 : d ≠ 1 := by omega
  have h2 : d ≠ 2 := by omega
  have h3 : d ≠ 3 := by omega
  simp [moveGame, moveDispatch, h0, h1, h2, h3]

/-- Witness for C5_amended at direction 7. -/
theorem C5_amended_witness :
    ((7 : ℤ) < 0 ∨ (3 : ℤ) < 7) ∧
      moveGame ⟨4, [[2,0,0,0],[0,0,0,0],[0,0,0,0],[0,0,2,2]], 3⟩ 7 =
        (⟨4, [[2,0,0,0],[0,0,0,0],[0,0,0,0],[0,0,2,2]], 3⟩, false, 0) :=
  ⟨by decide, C5_amended _ 7 (by decide)⟩

/-! ## Claim C6 — the no-op law -/

/-- Claim C6: whenever `move` reports `changed = false`, the grid is
cell-for-cell identical to the grid before the call and the score is
unchanged (`pointsGained` is not added); `move` itself never spawns a
tile, so the resulting state is exactly the input state. -/
theorem C6_noop_law (g : Game) (d : ℤ) (h : (moveGame g d).2.1 = false) :
    (moveGame g d).1.board = g.board ∧ (moveGame g d).1.score = g.score := by
  have hb : g.board = (moveDispatch g.size g.board d).1 := by
    by_contra hne
    simp only [moveGame, decide_eq_false_iff_not, not_not] at h
    exact hne h
  refine ⟨?_, ?_⟩
  · simp only [moveGame]
    exact hb.symm
  · simp only [moveGame] at h ⊢
    rw [h]
    simp

/-- Witness for C6_noop_law: LEFT on an already left-packed board is a no-op
and preserves board and score. -/
theorem C6_noop_law_witness :
    (moveGame ⟨4, [[2,0,0,0],[4,0,0,0],[0,0,0,0],[0,0,0,0]], 12⟩ 3).2.1 = false ∧
    (moveGame ⟨4, [[2,0,0,0],[4,0,0,0],[0,0,0,0],[0,0,0,0]], 12⟩ 3).1.board =
      [[2,0,0,0],[4,0,0,0],[0,0,0,0],[0,0,0,0]] ∧
    (moveGame ⟨4, [[2,0,0,0],[4,0,0,0],[0,0,0,0],[0,0,0,0]], 12⟩ 3).1.score = 12 :=
  ⟨by decide, (C6_noop_law ⟨4, [[2,0,0,0],[4,0,0,0],[0,0,0,0],[0,0,0,0]], 12⟩ 3
      (by decide)).1, (C6_noop_law ⟨4, [[2,0,0,0],[4,0,0,0],[0,0,0,0],[0,0,0,0]], 12⟩ 3
      (by decide)).2⟩

end Game2048

namespace Game2048

/-! ## Claim C8 — the power-of-two invariant -/

theorem getD_ne_zero_mem {l : List ℕ} {j : ℕ} (h : l.getD j 0 ≠ 0) :
    l.getD j 0 ∈ l := by
  by_cases hj : j < l.length
  · rw [List.getD_eq_getElem l 0 hj]
    exact List.getElem_mem hj
  · rw [List.getD_eq_default l 0 (le_of_not_lt hj)] at h
    exact absurd rfl h

theorem PowInv_moveLeftBoard {n : ℕ} {b : Board} (h : PowInv b) :
    PowInv (moveLeftBoard n b).1 := by
  intro r hr x hx hx0
  simp only [moveLeftBoard, List.mem_map] at hr
  obtain ⟨r0, hr0, rfl⟩ := hr
  simp only [moveLeftRow, List.mem_append] at hx
  rcases hx with hx | hx
  · rcases mergeRow_mem hx with hx' | ⟨y, hy, rfl⟩
    · exact h r0 hr0 x (compressRow_sublist r0 |>.subset hx') hx0
    · have hy0 : y ≠ 0 := compressRow_nonzero r0 y hy
      obtain ⟨k, hk1, rfl⟩ := h r0 hr0 y (compressRow_sublist r0 |>.subset hy) hy0
      exact ⟨k + 1, by omega, by ring⟩
  · exact absurd (List.eq_of_mem_replicate hx) hx0

theorem PowInv_reverseBoard {b : Board} (h : PowInv b) :
    PowInv (reverseBoard b) := by
  intro r hr x hx hx0
  simp only [reverseBoard, List.mem_map] at hr
  obtain ⟨r0, hr0, rfl⟩ := hr
  exact h r0 hr0 x (List.mem_reverse.1 hx) hx0

theorem PowInv_transposeB {b : Board} (h : PowInv b) :
    PowInv (transposeB b) := by
  intro r hr x hx hx0
  match b, hr with
  | r0 :: rest, hr =>
    simp only [transposeB, List.mem_map] at hr
    obtain ⟨j, _, rfl⟩ := hr
    simp only [List.mem_map] at hx
    obtain ⟨row, hrow, rfl⟩ := hx
    exact h row hrow _ (getD_ne_zero_mem hx0) hx0

theorem PowInv_moveGame (g : Game) (d : ℤ) (h : PowInv g.board) :
    PowInv (moveGame g d).1.board := by
  simp only [moveGame, moveDispatch]
  split_ifs with h0 h1 h2 h3
  · exact PowInv_transposeB (PowInv_moveLeftBoard (PowInv_transposeB h))
  · exact PowInv_reverseBoard (PowInv_moveLeftBoard (PowInv_reverseBoard h))
  · exact PowInv_transposeB (PowInv_reverseBoard
      (PowInv_moveLeftBoard (PowInv_reverseBoard (PowInv_transposeB h))))
  · exact PowInv_moveLeftBoard h
  · exact h

theorem PowInv_setCell {b : Board} {i j v : ℕ} (h : PowInv b)
    (hv : v = 2 ∨ v = 4) : PowInv (setCell b i j v) := by
  intro r hr x hx hx0
  rcases List.mem_or_eq_of_mem_set hr with hr' | rfl
  · exact h r hr' x hx hx0
  · rcases List.mem_or_eq_of_mem_set hx with hx' | rfl
    · by_cases hi : i < b.length
      · exact h _ (List.getD_eq_getElem b [] hi ▸ List.getElem_mem hi) x hx' hx0
      · rw [List.getD_eq_default b [] (le_of_not_lt hi)] at hx'
        exact absurd hx' (List.not_mem_nil x)
    · rcases hv with rfl | rfl
      · exact ⟨1, le_refl 1, rfl⟩
      · exact ⟨2, by omega, rfl⟩

/-- Claim C8: every board reachable from the initial all-zero grid by tile
spawns (which write only 2 or 4 into an empty cell) and move applications
(whose merges replace two equal values by their doubled sum) has only
power-of-two values at least 2 in its non-zero cells. -/
theorem C8_pow2_invariant {n : ℕ} {g : Game} (h : Reachable n g) :
    PowInv g.board := by
  induction h with
  | init =>
    intro r hr x hx hx0
    rw [List.eq_of_mem_replicate hr] at hx
    exact absurd (List.eq_of_mem_replicate hx) hx0
  | spawn _ hs ih =>
    obtain ⟨i, j, v, _, _, _, hv, rfl⟩ := hs
    exact PowInv_setCell ih hv
  | move d _ ih => exact PowInv_moveGame _ _ ih

/-- Witness for C8_pow2_invariant: the board obtained from the initial grid
by spawning a 2 at the top-left corner is reachable and satisfies the
invariant. -/
theorem C8_pow2_invariant_witness :
    PowInv (setCell (List.replicate 4 (List.replicate 4 0)) 0 0 2) :=
  C8_pow2_invariant
    (Reachable.spawn (Reachable.init (n := 4))
      ⟨0, 0, 2, by decide, by decide, by decide, Or.inl rfl, rfl⟩)

end Game2048

namespace Game2048

/-! ## The agent: top-level move selection (`expectimax_agent.py`)

`get_best_move` enumerates the legal moves, computes for each one the
expectimax value of the position after the move, and keeps the running best
under a strict `score > best_score` comparison.  The recursive expectimax
value of the position after a move involves the sampling randomness of the
chance nodes, so it enters the embedding as an arbitrary valuation
`val : ℤ → ℚ` (one rational per candidate move); the selection logic itself
is embedded exactly. -/

/-- The `for move in available_moves` loop of `get_best_move`:
`best_score` starts at `-inf` (modelled by the accumulator `none`) and a
candidate replaces the running best only under strict `>`. -/
def bestLoop (val : ℤ → ℚ) : Option (ℤ × ℚ) → List ℤ → Option (ℤ × ℚ)
  | acc, [] => acc
  | none, m :: ms => bestLoop val (some (m, val m)) ms
  | some (bm, bs), m :: ms =>
    if bs < val m then bestLoop val (some (m, val m)) ms
    else bestLoop val (some (bm, bs)) ms

/-- `get_best_move`: `None` when there is no legal move, otherwise the
result of the selection loop. -/
def getBestMove (g : Game) (val : ℤ → ℚ) : Option ℤ :=
  Option.map Prod.fst (bestLoop val none (availableMoves g))

/-- The running best of the selection loop, phrased structurally: the first
element attaining the maximum of `val` over `m :: l`. -/
def firstMax (val : ℤ → ℚ) (m : ℤ) : List ℤ → ℤ
  | [] => m
  | x :: xs => if val m < val x then firstMax val x xs else firstMax val m xs

theorem bestLoop_some (val : ℤ → ℚ) :
    ∀ (l : List ℤ) (m : ℤ),
      bestLoop val (some (m, val m)) l =
        some (firstMax val m l, val (firstMax val m l)) := by
  intro l
  induction l with
  | nil => intro m; rfl
  | cons x xs ih =>
    intro m
    by_cases h : val m < val x
    · rw [bestLoop, if_pos h, firstMax, if_pos h, ih]
    · rw [bestLoop, if_neg h, firstMax, if_neg h, ih]

theorem firstMax_spec (val : ℤ → ℚ) :
    ∀ (l : List ℤ) (m : ℤ),
      ∃ k, ∃ (hk : k < (m :: l).length),
        (m :: l).get ⟨k, hk⟩ = firstMax val m l ∧
        (∀ j (hj : j < (m :: l).length),
          val ((m :: l).get ⟨j, hj⟩) ≤ val (firstMax val m l)) ∧
        (∀ j (hj : j < (m :: l).length),
          j < k → val ((m :: l).get ⟨j, hj⟩) < val (firstMax val m l)) := by
  intro l
  induction l with
  | nil =>
    intro m
    refine ⟨0, by simp, rfl, ?_, ?_⟩
    · intro j hj
      have hj' : j = 0 := by simpa using hj
      subst hj'
      exact le_refl _
    · intro j hj hj0
      omega
  | cons x xs ih =>
    intro m
    by_cases h : val m < val x
    · obtain ⟨k, hk, he, hle, hlt⟩ := ih x
      rw [firstMax, if_pos h]
      refine ⟨k + 1, by simpa using hk, he, ?_, ?_⟩
      · intro j hj
        match j with
        | 0 => exact le_of_lt (lt_of_lt_of_le h (hle 0 (by simp)))
        | j' + 1 => exact hle j' (by simpa using hj)
      · intro j hj hjk
        match j with
        | 0 => exact lt_of_lt_of_le h (hle 0 (by simp))
        | j' + 1 => exact hlt j' (by simpa using hj) (by omega)
    · obtain ⟨k, hk, he, hle, hlt⟩ := ih m
      rw [firstMax, if_neg h]
      match k, hk with
      | 0, hk =>
        refine ⟨0, by simp, he, ?_, ?_⟩
        · intro j hj
          match j with
          | 0 => exact hle 0 (by simp)
          | 1 =>
            have hm := hle 0 (by simp)
            simp only [List.get] at hm ⊢
            exact le_trans (le_of_not_lt h) hm
          | j' + 2 => exact hle (j' + 1) (by simpa using hj)
        · intro j hj hj0
          omega
      | k' + 1, hk =>
        refine ⟨k' + 2, by simpa using hk, he, ?_, ?_⟩
        · intro j hj
          match j with
          | 0 => exact hle 0 (by simp)
          | 1 =>
            have hm := hle 0 (by simp)
            simp only [List.get] at hm ⊢
            exact le_trans (le_of_not_lt h) hm
          | j' + 2 => exact hle (j' + 1) (by simpa using hj)
        · intro j hj hjk
          match j with
          | 0 => exact hlt 0 (by simp) (by omega)
          | 1 =>
            have hm := hlt 0 (by simp) (by omega)
            simp only [List.get] at hm ⊢
            exact lt_of_le_of_lt (le_of_not_lt h) hm
          | j' + 2 => exact hlt (j' + 1) (by simpa using hj) (by omega)

/-! ## Claim C7 — result of the top-level search -/

/-- Claim C7: `get_best_move` returns the no-move signal `None` exactly when
the board has no legal move; otherwise it returns a legal move whose value
is maximal among the legal moves, and it is the first such move in
enumeration order — every earlier legal move has a strictly smaller value,
so a later equal value never replaces it. -/
theorem C7_best_move (g : Game) (val : ℤ → ℚ) :
    (getBestMove g val = none ↔ availableMoves g = []) ∧
    (∀ m, getBestMove g val = some m →
      ∃ k, ∃ (hk : k < (availableMoves g).length),
        (availableMoves g).get ⟨k, hk⟩ = m ∧
        (∀ j (hj : j < (availableMoves g).length),
          val ((availableMoves g).get ⟨j, hj⟩) ≤ val m) ∧
        (∀ j (hj : j < (availableMoves g).length),
          j < k → val ((availableMoves g).get ⟨j, hj⟩) < val m)) := by
  rcases hL : availableMoves g with _ | ⟨hd, tl⟩
  · constructor
    · simp [getBestMove, hL, bestLoop]
    · intro m hm
      simp [getBestMove, hL, bestLoop] at hm
  · have hb : bestLoop val none (hd :: tl) =
        some (firstMax val hd tl, val (firstMax val hd tl)) := by
      have h1 : bestLoop val none (hd :: tl) =
          bestLoop val (some (hd, val hd)) tl := rfl
      rw [h1, bestLoop_some]
    constructor
    · constructor
      · intro h
        rw [getBestMove, hL, hb] at h
        simp at h
      · intro h
        exact absurd h (List.cons_ne_nil hd tl)
    · intro m hm
      rw [getBestMove, hL, hb] at hm
      have hm' : firstMax val hd tl = m := by simpa using hm
      obtain ⟨k, hk, he, hle, hlt⟩ := firstMax_spec val tl hd
      subst hm'
      exact ⟨k, hk, he, hle, hlt⟩

/-- Witness for C7_best_move: on a terminal 1x1 board the search signals
"no move available". -/
theorem C7_best_move_witness :
    getBestMove ⟨1, [[2]], 0⟩ (fun _ => 0) = none ∧
      availableMoves ⟨1, [[2]], 0⟩ = [] :=
  ⟨(C7_best_move ⟨1, [[2]], 0⟩ (fun _ => 0)).1.mpr (by decide), by decide⟩

end Game2048

namespace Game2048

/-! ## Evaluators (`heuristics.py` and `ExpectimaxAgent._evaluate`)

`math.log2`, applied by the code only to strictly positive cell values,
enters the embedding as the parameter `lg : ℕ → ℚ`. -/

/-- The weight dict of `Heuristics.evaluate`. -/
structure Weights where
  empty_tiles : ℚ
  monotonicity : ℚ
  smoothness : ℚ
  max_tile : ℚ
  corner_bonus : ℚ
deriving DecidableEq, Repr

/-- The default weights substituted when `weights is None`. -/
def defaultWeights : Weights := ⟨10, 4, 1/2, 2, 1⟩

/-- `sum(1 for row in board for cell in row if cell == 0)`. -/
def emptyCount (b : Board) : ℕ := (b.map (fun r => r.count 0)).sum

/-- `Heuristics.empty_tiles`: squared count of empty cells. -/
def emptyTilesScoreH (b : Board) : ℕ := emptyCount b ^ 2

/-- One guarded contribution of `Heuristics.monotonicity`: the raw positive
difference `a - c` when both cells are non-zero and `a > c`. -/
def monoPos (a c : ℕ) : ℤ :=
  if a ≠ 0 ∧ c ≠ 0 ∧ c < a then (a : ℤ) - (c : ℤ) else 0

/-- `Heuristics.monotonicity`: best of the four raw-difference totals,
rows plus columns. -/
def monotonicityH (b : Board) : ℤ :=
  let n := b.length
  let t2 := (b.map (fun row =>
    ((List.range (n - 1)).map
      (fun j => monoPos (row.getD j 0) (row.getD (j + 1) 0))).sum)).sum
  let t3 := (b.map (fun row =>
    ((List.range (n - 1)).map
      (fun j => monoPos (row.getD (j + 1) 0) (row.getD j 0))).sum)).sum
  let t0 := ((List.range n).map (fun j =>
    ((List.range (n - 1)).map
      (fun i => monoPos (cell b i j) (cell b (i + 1) j))).sum)).sum
  let t1 := ((List.range n).map (fun j =>
    ((List.range (n - 1)).map
      (fun i => monoPos (cell b (i + 1) j) (cell b i j))).sum)).sum
  max t0 t1 + max t2 t3

/-- `Heuristics.smoothness`: negated sum of absolute log-differences between
horizontally and vertically adjacent non-zero cells. -/
def smoothnessH (lg : ℕ → ℚ) (b : Board) : ℚ :=
  let n := b.length;
  -(((List.range n).map (fun i => ((List.range n).map (fun j =>
      (if cell b i j ≠ 0 ∧ j < n - 1 ∧ cell b i (j + 1) ≠ 0
        then |lg (cell b i j) - lg (cell b i (j + 1))| else 0) +
      (if cell b i j ≠ 0 ∧ i < n - 1 ∧ cell b (i + 1) j ≠ 0
        then |lg (cell b i j) - lg (cell b (i + 1) j)| else 0))).sum)).sum)

/-- `max(max(row) for row in board)`. -/
def maxTileH (b : Board) : ℕ := (b.map (fun r => r.foldr max 0)).foldr max 0

/-- `Heuristics.max_tile_score`: `log2` of the maximum tile, 0 on an empty
board. -/
def maxTileScoreH (lg : ℕ → ℚ) (b : Board) : ℚ :=
  if maxTileH b = 0 then 0 else lg (maxTileH b)

/-- The corner cells read by `Heuristics.corner_bonus` (`size = len(board)`). -/
def cornersH (b : Board) : List ℕ :=
  [cell b 0 0, cell b 0 (b.length - 1),
   cell b (b.length - 1) 0, cell b (b.length - 1) (b.length - 1)]

/-- `Heuristics.corner_bonus`: 20000 when the maximum tile value occurs in a
corner, else 0. -/
def cornerBonusH (b : Board) : ℚ :=
  if maxTileH b ∈ cornersH b then 20000 else 0

/-- `Heuristics.evaluate(board, weights)`: the weighted sum of the five
features, with the default weights substituted when no dict is supplied. -/
def HeuristicsEvaluate (lg : ℕ → ℚ) (w : Option Weights) (b : Board) : ℚ :=
  let ww := w.getD defaultWeights
  ww.empty_tiles * (emptyTilesScoreH b : ℚ) +
  ww.monotonicity * (monotonicityH b : ℚ) +
  ww.smoothness * smoothnessH lg b +
  ww.max_tile * maxTileScoreH lg b +
  ww.corner_bonus * cornerBonusH b

/-- One guarded contribution of `ExpectimaxAgent._monotonicity`: the pair of
additions to the (increasing, decreasing) totals for one adjacent pair. -/
def agentMonoTerm (lg : ℕ → ℚ) (a c : ℕ) : ℚ × ℚ :=
  if 0 < a ∧ 0 < c then
    let d := lg a - lg c
    if 0 < d then (d, 0) else (0, -d)
  else (0, 0)

/-- `ExpectimaxAgent._monotonicity` (fixed 4x4, log-scaled). -/
def agentMonotonicity (lg : ℕ → ℚ) (b : Board) : ℚ :=
  let t2 := ((List.range 4).map (fun i => ((List.range 3).map
    (fun j => (agentMonoTerm lg (cell b i j) (cell b i (j + 1))).1)).sum)).sum
  let t3 := ((List.range 4).map (fun i => ((List.range 3).map
    (fun j => (agentMonoTerm lg (cell b i j) (cell b i (j + 1))).2)).sum)).sum
  let t0 := ((List.range 4).map (fun i => ((List.range 3).map
    (fun j => (agentMonoTerm lg (cell b j i) (cell b (j + 1) i)).1)).sum)).sum
  let t1 := ((List.range 4).map (fun i => ((List.range 3).map
    (fun j => (agentMonoTerm lg (cell b j i) (cell b (j + 1) i)).2)).sum)).sum
  max t0 t1 + max t2 t3

/-- `ExpectimaxAgent._smoothness` (fixed 4x4, log-scaled). -/
def agentSmoothness (lg : ℕ → ℚ) (b : Board) : ℚ :=
  -(((List.range 4).map (fun i => ((List.range 4).map (fun j =>
      (if 0 < cell b i j ∧ j < 3 ∧ 0 < cell b i (j + 1)
        then |lg (cell b i j) - lg (cell b i (j + 1))| else 0) +
      (if 0 < cell b i j ∧ i < 3 ∧ 0 < cell b (i + 1) j
        then |lg (cell b i j) - lg (cell b (i + 1) j)| else 0))).sum)).sum)

/-- The corner cells read by `ExpectimaxAgent._evaluate`. -/
def agentCorners (b : Board) : List ℕ :=
  [cell b 0 0, cell b 0 3, cell b 3 0, cell b 3 3]

/-- `ExpectimaxAgent._evaluate`: phase-adaptive weights bucketed on the
empty-cell count, plus log-scale max-tile term and a 5000-point corner
bonus. -/
def agentEvaluate (lg : ℕ → ℚ) (b : Board) : ℚ :=
  let empty := emptyCount b
  let w : ℚ × ℚ × ℚ :=
    if 10 < empty then (150000, 3000, 3000)
    else if 6 < empty then (200000, 8000, 2000)
    else (300000, 15000, 1000)
  w.1 * (empty : ℚ) ^ 2 +
  w.2.1 * agentMonotonicity lg b +
  w.2.2 * agentSmoothness lg b +
  (if 0 < maxTileH b then 2000 * lg (maxTileH b) else 0) +
  (if maxTileH b ∈ agentCorners b then 5000 else 0)

/-- `ExpectimaxAgent.__init__` stores `depth` and `heuristic_weights`
("kept for compatibility") with no validation of either. -/
structure AgentState where
  depth : ℤ
  heuristic_weights : Option Weights

/-- `ExpectimaxAgent.__init__`. -/
def agentInit (depth : ℤ) (hw : Option Weights) : AgentState := ⟨depth, hw⟩

/-- `ExpectimaxAgent._evaluate` as the method of the agent: it has access to
`self.heuristic_weights` but never consults it. -/
def agentEvaluateMethod (_a : AgentState) (lg : ℕ → ℚ) (b : Board) : ℚ :=
  agentEvaluate lg b

/-- The size of the cell subset evaluated by `ExpectimaxAgent._chance_node`
(`len(sampled_cells)`), as a function of the empty-cell count and the
remaining depth. -/
def chanceSampleCount (numEmpty : ℕ) (depth : ℤ) : ℕ :=
  if 10 < numEmpty ∧ depth ≤ 1 then min 8 numEmpty
  else if 6 < numEmpty then min numEmpty 6
  else numEmpty

end Game2048

namespace Game2048

/-! ## Claim C2 — supplied weights and the agent's leaf evaluation -/

/-- Claim C2 (counterexample): on the all-empty board, with the explicit
weight vector (1,1,1,1,1) supplied to the agent, the leaf value used by the
agent's search is the phase-adaptive score 38405000, not the supplied-weight
weighted sum 20256 (the value `Heuristics.evaluate` computes from those
weights) — the supplied weights do not override the adaptive phase logic. -/
theorem C2_counterexample :
    agentEvaluateMethod (agentInit 5 (some ⟨1, 1, 1, 1, 1⟩))
        (fun n => (Nat.log2 n : ℚ))
        [[0,0,0,0],[0,0,0,0],[0,0,0,0],[0,0,0,0]] = 38405000 ∧
    HeuristicsEvaluate (fun n => (Nat.log2 n : ℚ)) (some ⟨1, 1, 1, 1, 1⟩)
        [[0,0,0,0],[0,0,0,0],[0,0,0,0],[0,0,0,0]] = 20256 ∧
    (38405000 : ℚ) ≠ 20256 := by
  refine ⟨?_, ?_, by norm_num⟩
  · norm_num [agentEvaluateMethod, agentEvaluate, emptyCount, agentMonotonicity,
      agentSmoothness, agentMonoTerm, maxTileH, agentCorners, cell,
      List.range_succ]
  · norm_num [HeuristicsEvaluate, defaultWeights, emptyTilesScoreH, emptyCount,
      monotonicityH, monoPos, smoothnessH, maxTileScoreH, cornerBonusH,
      cornersH, maxTileH, cell, List.range_succ]

/-- Claim C2 (amended): the agent stores `heuristic_weights` for
compatibility only; its `_evaluate` never consults them, so the leaf value
of the search is the same for every stored weight vector (and every depth).
An explicit weight vector governs only the separate `Heuristics.evaluate`,
which does compute the supplied-weight weighted sum of the five features
but is not called by the agent's search. -/
theorem C2_amended (d d' : ℤ) (w w' : Option Weights) (lg : ℕ → ℚ)
    (b : Board) (ww : Weights) :
    agentEvaluateMethod (agentInit d w) lg b =
      agentEvaluateMethod (agentInit d' w') lg b ∧
    HeuristicsEvaluate lg (some ww) b =
      ww.empty_tiles * (emptyTilesScoreH b : ℚ) +
      ww.monotonicity * (monotonicityH b : ℚ) +
      ww.smoothness * smoothnessH lg b +
      ww.max_tile * maxTileScoreH lg b +
      ww.corner_bonus * cornerBonusH b :=
  ⟨rfl, rfl⟩

/-! ## Claim C3 — the chance-node sampling policy -/

theorem chanceSampleCount_eq (n : ℕ) (d : ℤ) :
    chanceSampleCount n d =
      if 10 < n ∧ d ≤ 1 then 8 else if 6 < n then 6 else n := by
  unfold chanceSampleCount
  split_ifs with h1 h2
  · exact Nat.min_eq_left (by omega)
  · exact Nat.min_eq_right (by omega)
  · rfl

/-- Claim C3 (counterexample): at a chance node with 7 empty cells and
remaining depth 5 (large, not small), the code samples a strict subset of
6 cells instead of evaluating every empty cell. -/
theorem C3_counterexample :
    chanceSampleCount 7 5 = 6 ∧ chanceSampleCount 7 5 ≠ 7 := by
  constructor
  · rfl
  · intro h
    exact absurd h (by decide)

/-- Claim C3 (amended): the chance node evaluates every empty cell exactly
when the empty-cell count is at most 6; whenever the count exceeds 6 a
random subset is sampled regardless of the remaining depth — 8 cells when
the count exceeds 10 and depth ≤ 1, otherwise 6 cells. -/
theorem C3_amended (n : ℕ) (d : ℤ) :
    (chanceSampleCount n d = n ↔ n ≤ 6) ∧
    (10 < n ∧ d ≤ 1 → chanceSampleCount n d = 8) ∧
    (6 < n → ¬ (10 < n ∧ d ≤ 1) → chanceSampleCount n d = 6) := by
  rw [chanceSampleCount_eq]
  refine ⟨?_, ?_, ?_⟩
  · by_cases h1 : 10 < n ∧ d ≤ 1
    · rw [if_pos h1]
      obtain ⟨h1a, _⟩ := h1
      exact ⟨fun h => by omega, fun h => by omega⟩
    · rw [if_neg h1]
      by_cases h2 : 6 < n
      · rw [if_pos h2]
        exact ⟨fun h => by omega, fun h => by omega⟩
      · rw [if_neg h2]
        exact ⟨fun _ => by omega, fun _ => rfl⟩
  · intro h1
    rw [if_pos h1]
  · intro h2 h1
    rw [if_neg h1, if_pos h2]

/-- Witness for C3_amended. -/
theorem C3_amended_witness :
    chanceSampleCount 12 0 = 8 ∧ chanceSampleCount 7 9 = 6 :=
  ⟨(C3_amended 12 0).2.1 (by decide), (C3_amended 7 9).2.2 (by decide) (by decide)⟩

end Game2048

namespace Game2048

/-! ## Claim C4 — no fail-fast configuration validation -/

/-- Claim C4 (counterexample): constructing an agent with depth 0 (< 1)
succeeds with no validation, and invoking the top-level search on a 1x1
board (N = 1 < 2) does not raise a configuration error: it runs the legal
move enumeration and returns the ordinary no-move signal `None`. -/
theorem C4_counterexample :
    (agentInit 0 none).depth = 0 ∧
    getBestMove ⟨1, [[2]], 5⟩ (fun _ => 0) = none :=
  ⟨rfl, by decide⟩

/-- Claim C4 (amended): neither `__init__` nor `get_best_move` validates the
board size or the depth.  On a board with N < 2 every direction is a no-op,
so for every cell value, every score, and every valuation of the moves
(hence every depth), the top-level search proceeds normally and returns the
no-move signal `None` instead of failing fast. -/
theorem C4_amended (v s sc : ℕ) (val : ℤ → ℚ) :
    getBestMove ⟨1, [[v]], s⟩ val = none ∧
    getBestMove ⟨0, [], sc⟩ val = none := by
  constructor
  · by_cases hv : v = 0
    · subst hv
      rfl
    · have hv' : (v != 0) = true := by simpa using hv
      have hrow : moveLeftRow 1 [v] = ([v], 0) := by
        simp [moveLeftRow, compressRow, mergeRow, hv']
      have ht : transposeB [[v]] = [[v]] := rfl
      have hrev : reverseBoard [[v]] = [[v]] := rfl
      have hlg : moveLeftBoard 1 [[v]] = ([[v]], 0) := by
        simp [moveLeftBoard, hrow]
      have hug : moveUpBoard 1 [[v]] = ([[v]], 0) := by
        simp only [moveUpBoard]
        rw [ht, hlg]
        exact congrArg (fun z => (z, 0)) ht
      have hrg : moveRightBoard 1 [[v]] = ([[v]], 0) := by
        simp only [moveRightBoard]
        rw [hrev, hlg, hrev]
      have hdg : moveDownBoard 1 [[v]] = ([[v]], 0) := by
        simp only [moveDownBoard]
        rw [ht, hrg]
        exact congrArg (fun z => (z, 0)) ht
      have hmv : ∀ d : ℤ, (moveGame ⟨1, [[v]], s⟩ d).2.1 = false := by
        intro d
        simp only [moveGame, moveDispatch]
        split_ifs with h0 h1 h2 h3 <;>
          simp [hug, hrg, hdg, hlg]
      simp [getBestMove, availableMoves, List.filter, hmv, bestLoop]
  · rfl

end Game2048

namespace Game2048

/-! ## Claim C10 — corner bonus on the all-empty board -/

theorem foldrMax_le {l : List ℕ} {x : ℕ} (hx : x ∈ l) : x ≤ l.foldr max 0 := by
  induction l with
  | nil => cases hx
  | cons a t ih =>
    rcases List.mem_cons.1 hx with rfl | hx'
    · exact le_max_left _ _
    · exact le_trans (ih hx') (le_max_right _ _)

theorem le_maxTileH {b : Board} {r : List ℕ} {x : ℕ} (hr : r ∈ b)
    (hx : x ∈ r) : x ≤ maxTileH b := by
  have h1 : x ≤ r.foldr max 0 := foldrMax_le hx
  have h2 : r.foldr max 0 ≤ maxTileH b :=
    foldrMax_le (List.mem_map.2 ⟨r, hr, rfl⟩)
  exact le_trans h1 h2

theorem cell_eq_zero_of_maxTileH {b : Board} (h : maxTileH b = 0)
    (i j : ℕ) : cell b i j = 0 := by
  unfold cell
  by_cases hi : i < b.length
  · rw [List.getD_eq_getElem b [] hi]
    by_cases hj : j < (b.getD i []).length
    · rw [List.getD_eq_getElem b [] hi] at hj
      rw [List.getD_eq_getElem _ 0 hj]
      have := le_maxTileH (List.getElem_mem hi) (List.getElem_mem hj)
      omega
    · rw [List.getD_eq_getElem b [] hi] at hj
      exact List.getD_eq_default _ 0 (le_of_not_lt hj)
  · rw [List.getD_eq_default b [] (le_of_not_lt hi)]
    rfl

/-- Claim C10: on a board whose maximum cell value is 0, the corner test
compares 0 against corner cells that are themselves 0, so
`Heuristics.corner_bonus` grants its 20000 bonus and the corner condition
of `ExpectimaxAgent._evaluate` (`max_tile in corners`) holds — no non-zero
tile in a corner is required. -/
theorem C10_corner_bonus (b : Board) (h : maxTileH b = 0) :
    cornerBonusH b = 20000 ∧ maxTileH b ∈ agentCorners b := by
  have h00 := cell_eq_zero_of_maxTileH h 0 0
  constructor
  · unfold cornerBonusH
    rw [if_pos]
    unfold cornersH
    rw [h]
    exact List.mem_cons.2 (Or.inl h00.symm)
  · unfold agentCorners
    rw [h]
    exact List.mem_cons.2 (Or.inl h00.symm)

/-- Witness for C10_corner_bonus at the all-empty board. -/
theorem C10_corner_bonus_witness :
    cornerBonusH [[0,0,0,0],[0,0,0,0],[0,0,0,0],[0,0,0,0]] = 20000 ∧
    maxTileH [[0,0,0,0],[0,0,0,0],[0,0,0,0],[0,0,0,0]] ∈
      agentCorners [[0,0,0,0],[0,0,0,0],[0,0,0,0],[0,0,0,0]] :=
  C10_corner_bonus _ (by decide)

end Game2048

namespace Game2048

/-! ## Shape lemmas for 4x4 boards (claim C9) -/

/-- A rectangular 4x4 board. -/
def Shape4 (b : Board) : Prop := b.length = 4 ∧ ∀ r ∈ b, r.length = 4

theorem exists_four {α : Type} (l : List α) (h : l.length = 4) :
    ∃ x0 x1 x2 x3, l = [x0, x1, x2, x3] := by
  match l, h with
  | [x0, x1, x2, x3], _ => exact ⟨x0, x1, x2, x3, rfl⟩

theorem transposeB_eq {b : Board} (hsh : Shape4 b) :
    transposeB b = (List.range 4).map (fun j => b.map (fun row => row.getD j 0)) := by
  obtain ⟨hlen, hrow⟩ := hsh
  match b, hlen with
  | r :: rest, _ =>
    have h4 : r.length = 4 := hrow r (by simp)
    show (List.range r.length).map _ = _
    rw [h4]

theorem transposeB_length {b : Board} (hsh : Shape4 b) :
    (transposeB b).length = 4 := by
  rw [transposeB_eq hsh]
  simp

theorem transposeB_row {b : Board} (hsh : Shape4 b) {j : ℕ}
    (hj : j < (transposeB b).length) :
    (transposeB b)[j] = b.map (fun row => row.getD j 0) := by
  have he := transposeB_eq hsh
  rw [List.getElem_of_eq he hj]
  have hj4 : j < 4 := by
    have := transposeB_length hsh
    omega
  rw [List.getElem_map, List.getElem_range]

theorem transposeB_shape {b : Board} (hsh : Shape4 b) :
    Shape4 (transposeB b) := by
  refine ⟨transposeB_length hsh, ?_⟩
  intro r hr
  obtain ⟨j, hj, rfl⟩ := List.mem_iff_getElem.1 hr
  rw [transposeB_row hsh hj, List.length_map]
  exact hsh.1

theorem transposeB_cell {b : Board} (hsh : Shape4 b) {i j : ℕ}
    (hi : i < 4) (hjt : j < (transposeB b).length)
    (hit : i < ((transposeB b)[j]).length) :
    ((transposeB b)[j])[i] = cell b i j := by
  have hrow := transposeB_row hsh hjt
  rw [List.getElem_of_eq hrow hit]
  have hib : i < b.length := by rw [hsh.1]; exact hi
  rw [List.getElem_map]
  unfold cell
  rw [List.getD_eq_getElem b [] hib]

theorem transposeB_transposeB {b : Board} (hsh : Shape4 b) :
    transposeB (transposeB b) = b := by
  obtain ⟨hlen, hrow⟩ := hsh
  obtain ⟨r0, r1, r2, r3, rfl⟩ := exists_four b hlen
  obtain ⟨x00, x01, x02, x03, rfl⟩ := exists_four r0 (hrow _ (by simp))
  obtain ⟨x10, x11, x12, x13, rfl⟩ := exists_four r1 (hrow _ (by simp))
  obtain ⟨x20, x21, x22, x23, rfl⟩ := exists_four r2 (hrow _ (by simp))
  obtain ⟨x30, x31, x32, x33, rfl⟩ := exists_four r3 (hrow _ (by simp))
  rfl

theorem moveLeftBoard_fst (n : ℕ) (b : Board) :
    (moveLeftBoard n b).1 = b.map (fun r => (moveLeftRow n r).1) := rfl

theorem moveRightBoard_map (n : ℕ) (b : Board) :
    (moveRightBoard n b).1 =
      b.map (fun r => ((moveLeftRow n r.reverse).1).reverse) := by
  simp [moveRightBoard, reverseBoard, moveLeftBoard, List.map_map]

theorem moveUpBoard_fst (n : ℕ) (b : Board) :
    (moveUpBoard n b).1 = transposeB (moveLeftBoard n (transposeB b)).1 := rfl

theorem moveDownBoard_fst (n : ℕ) (b : Board) :
    (moveDownBoard n b).1 = transposeB (moveRightBoard n (transposeB b)).1 := rfl

theorem moveLeftBoard_shape {b : Board} (hsh : Shape4 b) :
    Shape4 (moveLeftBoard 4 b).1 := by
  rw [moveLeftBoard_fst]
  refine ⟨by rw [List.length_map]; exact hsh.1, ?_⟩
  intro r hr
  obtain ⟨r0, hr0, rfl⟩ := List.mem_map.1 hr
  exact moveLeftRow_length (by rw [hsh.2 r0 hr0])

theorem moveRightBoard_shape {b : Board} (hsh : Shape4 b) :
    Shape4 (moveRightBoard 4 b).1 := by
  rw [moveRightBoard_map]
  refine ⟨by rw [List.length_map]; exact hsh.1, ?_⟩
  intro r hr
  obtain ⟨r0, hr0, rfl⟩ := List.mem_map.1 hr
  rw [List.length_reverse]
  exact moveLeftRow_length (by rw [List.length_reverse, hsh.2 r0 hr0])

theorem map_ne_self {α : Type} {f : α → α} {l : List α} {i : ℕ}
    (hi : i < l.length) (hne : f l[i] ≠ l[i]) : l.map f ≠ l := by
  intro he
  apply hne
  have h1 : (l.map f)[i]? = l[i]? := by rw [he]
  rw [List.getElem?_map, List.getElem?_eq_getElem hi] at h1
  simpa using h1

theorem changed_of_ne {g : Game} {d : ℤ}
    (h : g.board ≠ (moveDispatch g.size g.board d).1) :
    (moveGame g d).2.1 = true := decide_eq_true h

theorem unchanged_of_eq {g : Game} {d : ℤ}
    (h : g.board = (moveDispatch g.size g.board d).1) :
    (moveGame g d).2.1 = false := decide_eq_false (not_not_intro h)

theorem not_over_of_changed {g : Game} {d : ℤ} (hd : d ∈ ([0, 1, 2, 3] : List ℤ))
    (h : (moveGame g d).2.1 = true) : isGameOver g = false := by
  have hmem : d ∈ availableMoves g := List.mem_filter.2 ⟨hd, h⟩
  exact List.isEmpty_eq_false.2 (List.ne_nil_of_mem hmem)

end Game2048

namespace Game2048

theorem cell_getElem2 {b : Board} {i j : ℕ} (hi : i < b.length)
    (hj : j < (b[i]).length) : cell b i j = (b[i])[j] := by
  unfold cell
  rw [List.getD_eq_getElem b [] hi, List.getD_eq_getElem _ 0 hj]

theorem moveLeftRow_fixed4 {row : List ℕ} (hlen : row.length = 4)
    (hnz : ∀ x ∈ row, x ≠ 0) (hch : List.Chain' (fun a b => a ≠ b) row) :
    (moveLeftRow 4 row).1 = row := by
  have h := moveLeftRow_fixed hnz hch
  rw [hlen] at h
  rw [h]

/-- A row of the board holding both a zero and a non-zero cell makes LEFT or
RIGHT a legal move, so the game is not over. -/
theorem not_over_left_right {g : Game} (hs4 : g.size = 4) {i p q : ℕ}
    (hi : i < g.board.length)
    (hp : p < (g.board[i]).length) (hq : q < (g.board[i]).length)
    (h0 : (g.board[i])[p] = 0) (hnz : (g.board[i])[q] ≠ 0) :
    isGameOver g = false := by
  rcases row_mixed_move (n := 4) hp hq h0 hnz with hL | hR
  · refine not_over_of_changed (d := 3) (by decide) (changed_of_ne ?_)
    rw [hs4]
    have hch : (moveDispatch 4 g.board 3).1 =
        g.board.map (fun r => (moveLeftRow 4 r).1) := rfl
    rw [hch]
    exact (map_ne_self hi hL).symm
  · refine not_over_of_changed (d := 1) (by decide) (changed_of_ne ?_)
    rw [hs4]
    have hch : (moveDispatch 4 g.board 1).1 = (moveRightBoard 4 g.board).1 := rfl
    rw [hch, moveRightBoard_map]
    exact (map_ne_self hi hR).symm

/-- A column of the board holding both a zero and a non-zero cell makes UP
or DOWN a legal move, so the game is not over (stated for column 0, which
suffices when one row is all-zero and another all-non-zero). -/
theorem not_over_up_down {g : Game} (hs4 : g.size = 4) (hsh : Shape4 g.board)
    {iz ik : ℕ} (hiz : iz < 4) (hik : ik < 4)
    (h0 : cell g.board iz 0 = 0) (hnz : cell g.board ik 0 ≠ 0) :
    isGameOver g = false := by
  have hct : Shape4 (transposeB g.board) := transposeB_shape hsh
  have h0t : 0 < (transposeB g.board).length := by rw [hct.1]; omega
  have hc0len : ((transposeB g.board)[0]).length = 4 :=
    hct.2 _ (List.getElem_mem h0t)
  have hizc : iz < ((transposeB g.board)[0]).length := by omega
  have hikc : ik < ((transposeB g.board)[0]).length := by omega
  have e0 : ((transposeB g.board)[0])[iz] = 0 := by
    rw [transposeB_cell hsh hiz h0t hizc]
    exact h0
  have e1 : ((transposeB g.board)[0])[ik] ≠ 0 := by
    rw [transposeB_cell hsh hik h0t hikc]
    exact hnz
  rcases row_mixed_move (n := 4) hizc hikc e0 e1 with hL | hR
  · refine not_over_of_changed (d := 0) (by decide) (changed_of_ne ?_)
    rw [hs4]
    have hdis : (moveDispatch 4 g.board 0).1 =
        transposeB (moveLeftBoard 4 (transposeB g.board)).1 := rfl
    rw [hdis]
    intro he
    have hM : Shape4 (moveLeftBoard 4 (transposeB g.board)).1 :=
      moveLeftBoard_shape hct
    have he2 : transposeB g.board = (moveLeftBoard 4 (transposeB g.board)).1 := by
      have hc := congrArg transposeB he
      rwa [transposeB_transposeB hM] at hc
    have hmap : (transposeB g.board).map (fun r => (moveLeftRow 4 r).1) ≠
        transposeB g.board := map_ne_self h0t hL
    apply hmap
    rw [← moveLeftBoard_fst]
    exact he2.symm
  · refine not_over_of_changed (d := 2) (by decide) (changed_of_ne ?_)
    rw [hs4]
    have hdis : (moveDispatch 4 g.board 2).1 =
        transposeB (moveRightBoard 4 (transposeB g.board)).1 := rfl
    rw [hdis]
    intro he
    have hN : Shape4 (moveRightBoard 4 (transposeB g.board)).1 :=
      moveRightBoard_shape hct
    have he2 : transposeB g.board = (moveRightBoard 4 (transposeB g.board)).1 := by
      have hc := congrArg transposeB he
      rwa [transposeB_transposeB hN] at hc
    have hmap : (transposeB g.board).map
        (fun r => ((moveLeftRow 4 r.reverse).1).reverse) ≠
        transposeB g.board := map_ne_self h0t hR
    apply hmap
    rw [← moveRightBoard_map]
    exact he2.symm

end Game2048

namespace Game2048

/-! ## Claim C9 — the terminal test -/

/-- Claim C9 (counterexample): the all-zero 4x4 grid has every cell empty,
yet no direction changes it, so `is_game_over` reports true — refuting
"returns false for every grid that contains at least one empty cell". -/
theorem C9_counterexample :
    isGameOver ⟨4, [[0,0,0,0],[0,0,0,0],[0,0,0,0],[0,0,0,0]], 0⟩ = true ∧
    cell [[0,0,0,0],[0,0,0,0],[0,0,0,0],[0,0,0,0]] 0 0 = 0 := by
  decide

/-- Claim C9 (amended): on a 4x4 board, (a) if every cell is occupied and
every horizontally or vertically adjacent pair differs, `is_game_over`
reports true; (b) if the board has at least one empty cell AND at least one
non-zero cell, `is_game_over` reports false.  (The all-zero grid — empty
cells but no tiles — is the sole exception to the claim's second half:
every move is a no-op there, so it reports true.) -/
theorem C9_terminal (g : Game) (hs4 : g.size = 4) (hlen : g.board.length = 4)
    (hrow : ∀ r ∈ g.board, r.length = 4) :
    ((∀ i j, i < 4 → j < 4 → cell g.board i j ≠ 0) →
     (∀ i j, i < 4 → j < 3 → cell g.board i j ≠ cell g.board i (j + 1)) →
     (∀ i j, i < 3 → j < 4 → cell g.board i j ≠ cell g.board (i + 1) j) →
     isGameOver g = true) ∧
    ((∃ i j, i < 4 ∧ j < 4 ∧ cell g.board i j = 0) →
     (∃ i j, i < 4 ∧ j < 4 ∧ cell g.board i j ≠ 0) →
     isGameOver g = false) := by
  have hsh : Shape4 g.board := ⟨hlen, hrow⟩
  constructor
  · intro hfull hhor hver
    have hrowsnz : ∀ r ∈ g.board, ∀ x ∈ r, x ≠ 0 := by
      intro r hr x hx
      obtain ⟨i, hi, rfl⟩ := List.mem_iff_getElem.1 hr
      obtain ⟨j, hj, rfl⟩ := List.mem_iff_getElem.1 hx
      have hi4 : i < 4 := hlen ▸ hi
      have hj4 : j < 4 := by
        have := hrow _ (List.getElem_mem hi)
        omega
      have hc := hfull i j hi4 hj4
      rwa [cell_getElem2 hi hj] at hc
    have hrowsch : ∀ r ∈ g.board, List.Chain' (fun a b => a ≠ b) r := by
      intro r hr
      obtain ⟨i, hi, rfl⟩ := List.mem_iff_getElem.1 hr
      have hi4 : i < 4 := hlen ▸ hi
      have hlen4 : (g.board[i]).length = 4 := hrow _ (List.getElem_mem hi)
      rw [List.chain'_iff_get]
      intro j hj
      simp only [List.get_eq_getElem]
      have hj3 : j < 3 := by omega
      have hc := hhor i j hi4 hj3
      rw [cell_getElem2 hi (by omega), cell_getElem2 hi (by omega)] at hc
      exact hc
    have hLfix : (moveLeftBoard 4 g.board).1 = g.board := by
      rw [moveLeftBoard_fst]
      have hone : ∀ r ∈ g.board, (moveLeftRow 4 r).1 = id r := fun r hr =>
        moveLeftRow_fixed4 (hrow r hr) (hrowsnz r hr) (hrowsch r hr)
      rw [List.map_congr_left hone, List.map_id]
    have hRfix : (moveRightBoard 4 g.board).1 = g.board := by
      rw [moveRightBoard_map]
      have hone : ∀ r ∈ g.board,
          ((moveLeftRow 4 r.reverse).1).reverse = id r := by
        intro r hr
        have hnz : ∀ x ∈ r.reverse, x ≠ 0 := fun x hx =>
          hrowsnz r hr x (List.mem_reverse.1 hx)
        have hch : List.Chain' (fun a b => a ≠ b) r.reverse :=
          List.chain'_reverse.mpr ((hrowsch r hr).imp fun a b hab => hab.symm)
        rw [moveLeftRow_fixed4 (by rw [List.length_reverse]; exact hrow r hr)
          hnz hch, List.reverse_reverse]
        rfl
      rw [List.map_congr_left hone, List.map_id]
    have hctsh : Shape4 (transposeB g.board) := transposeB_shape hsh
    have hcnz : ∀ r ∈ transposeB g.board, ∀ x ∈ r, x ≠ 0 := by
      intro r hr x hx
      obtain ⟨j, hj, rfl⟩ := List.mem_iff_getElem.1 hr
      obtain ⟨i, hi, rfl⟩ := List.mem_iff_getElem.1 hx
      have hj4 : j < 4 := hctsh.1 ▸ hj
      have hi4 : i < 4 := by
        have := hctsh.2 _ (List.getElem_mem hj)
        omega
      rw [transposeB_cell hsh hi4 hj hi]
      exact hfull i j hi4 hj4
    have hcch : ∀ r ∈ transposeB g.board, List.Chain' (fun a b => a ≠ b) r := by
      intro r hr
      obtain ⟨j, hj, rfl⟩ := List.mem_iff_getElem.1 hr
      have hj4 : j < 4 := hctsh.1 ▸ hj
      have hlen4 : ((transposeB g.board)[j]).length = 4 :=
        hctsh.2 _ (List.getElem_mem hj)
      rw [List.chain'_iff_get]
      intro i hi
      simp only [List.get_eq_getElem]
      have hi3 : i < 3 := by omega
      rw [transposeB_cell hsh (by omega) hj (by omega),
        transposeB_cell hsh (by omega) hj (by omega)]
      exact hver i j hi3 hj4
    have hcfixL : (moveLeftBoard 4 (transposeB g.board)).1 = transposeB g.board := by
      rw [moveLeftBoard_fst]
      have hone : ∀ r ∈ transposeB g.board, (moveLeftRow 4 r).1 = id r := fun r hr =>
        moveLeftRow_fixed4 (hctsh.2 r hr) (hcnz r hr) (hcch r hr)
      rw [List.map_congr_left hone, List.map_id]
    have hUfix : (moveUpBoard 4 g.board).1 = g.board := by
      rw [moveUpBoard_fst, hcfixL, transposeB_transposeB hsh]
    have hcfixR : (moveRightBoard 4 (transposeB g.board)).1 = transposeB g.board := by
      rw [moveRightBoard_map]
      have hone : ∀ r ∈ transposeB g.board,
          ((moveLeftRow 4 r.reverse).1).reverse = id r := by
        intro r hr
        have hnz : ∀ x ∈ r.reverse, x ≠ 0 := fun x hx =>
          hcnz r hr x (List.mem_reverse.1 hx)
        have hch : List.Chain' (fun a b => a ≠ b) r.reverse :=
          List.chain'_reverse.mpr ((hcch r hr).imp fun a b hab => hab.symm)
        rw [moveLeftRow_fixed4 (by rw [List.length_reverse]; exact hctsh.2 r hr)
          hnz hch, List.reverse_reverse]
        rfl
      rw [List.map_congr_left hone, List.map_id]
    have hDfix : (moveDownBoard 4 g.board).1 = g.board := by
      rw [moveDownBoard_fst, hcfixR, transposeB_transposeB hsh]
    have h0 : g.board = (moveDispatch g.size g.board 0).1 := by
      rw [hs4]
      have hq : (moveDispatch 4 g.board 0).1 = (moveUpBoard 4 g.board).1 := rfl
      rw [hq, hUfix]
    have h1 : g.board = (moveDispatch g.size g.board 1).1 := by
      rw [hs4]
      have hq : (moveDispatch 4 g.board 1).1 = (moveRightBoard 4 g.board).1 := rfl
      rw [hq, hRfix]
    have h2 : g.board = (moveDispatch g.size g.board 2).1 := by
      rw [hs4]
      have hq : (moveDispatch 4 g.board 2).1 = (moveDownBoard 4 g.board).1 := rfl
      rw [hq, hDfix]
    have h3 : g.board = (moveDispatch g.size g.board 3).1 := by
      rw [hs4]
      have hq : (moveDispatch 4 g.board 3).1 = (moveLeftBoard 4 g.board).1 := rfl
      rw [hq, hLfix]
    have hav : availableMoves g = [] := by
      refine List.filter_eq_nil_iff.2 ?_
      intro d hd
      fin_cases hd
      · rw [unchanged_of_eq h0]
        simp
      · rw [unchanged_of_eq h1]
        simp
      · rw [unchanged_of_eq h2]
        simp
      · rw [unchanged_of_eq h3]
        simp
    unfold isGameOver
    rw [hav]
    rfl
  · intro hz hn
    obtain ⟨iz, jz, hiz, hjz, hz0⟩ := hz
    obtain ⟨ik, jk, hik, hjk, hkz⟩ := hn
    by_cases hmix : ∃ i p q, i < 4 ∧ p < 4 ∧ q < 4 ∧
        cell g.board i p = 0 ∧ cell g.board i q ≠ 0
    · obtain ⟨i, p, q, hi4, hp4, hq4, hp0, hqz⟩ := hmix
      have hib : i < g.board.length := by rw [hlen]; exact hi4
      have hrl : (g.board[i]).length = 4 := hrow _ (List.getElem_mem hib)
      have hpb : p < (g.board[i]).length := by omega
      have hqb : q < (g.board[i]).length := by omega
      rw [cell_getElem2 hib hpb] at hp0
      rw [cell_getElem2 hib hqb] at hqz
      exact not_over_left_right hs4 hib hpb hqb hp0 hqz
    · push_neg at hmix
      have hz00 : cell g.board iz 0 = 0 := hmix iz jz 0 hiz hjz (by omega) hz0
      have hk00 : cell g.board ik 0 ≠ 0 := fun hzz =>
        hkz (hmix ik 0 jk hik (by omega) hjk hzz)
      exact not_over_up_down hs4 hsh hiz hik hz00 hk00

/-- Witness for C9_terminal: a packed checkerboard of 2s and 4s is terminal;
a board holding a single 2 is not. -/
theorem C9_terminal_witness :
    isGameOver ⟨4, [[2,4,2,4],[4,2,4,2],[2,4,2,4],[4,2,4,2]], 0⟩ = true ∧
    isGameOver ⟨4, [[2,0,0,0],[0,0,0,0],[0,0,0,0],[0,0,0,0]], 0⟩ = false := by
  constructor
  · exact (C9_terminal ⟨4, [[2,4,2,4],[4,2,4,2],[2,4,2,4],[4,2,4,2]], 0⟩
      rfl rfl (by decide)).1
      (by intro i j hi hj; interval_cases i <;> interval_cases j <;> decide)
      (by intro i j hi hj; interval_cases i <;> interval_cases j <;> decide)
      (by intro i j hi hj; interval_cases i <;> interval_cases j <;> decide)
  · exact (C9_terminal ⟨4, [[2,0,0,0],[0,0,0,0],[0,0,0,0],[0,0,0,0]], 0⟩
      rfl rfl (by decide)).2
      ⟨0, 1, by decide, by decide, by decide⟩
      ⟨0, 0, by decide, by decide, by decide⟩

end Game2048
